import Mathlib

/-!
Verification of the CamillaDSP limiter filters (`src/limiter.rs` and
`src/rms_limiter.rs`) against their natural-language specification.

Samples (`PrcFmt`) are modelled as real numbers.  The one place where IEEE
floating-point semantics differs observably from real arithmetic is the
division `threshold_voltage_ratio / rms` when `rms = 0`: in IEEE arithmetic a
positive numerator divided by `0.0` gives `+inf` (and an empty window gives
`NaN`, which `PrcFmt::min(1.0, _)` also maps to `1.0`), so the following
`min(1.0, _)` clamp yields exactly `1.0`.  The definition `candidate_gain`
below makes that case split explicit.
-/

/-- Model of `ringbuffer::AllocRingBuffer` as used by the limiters: a FIFO
buffer with a fixed capacity; `data` lists the buffered samples oldest first. -/
structure RingBuf where
  capacity : ℕ
  data : List ℝ

/-- `AllocRingBuffer::with_capacity`: a fresh, empty buffer. -/
def RingBuf.withCapacity (n : ℕ) : RingBuf :=
  { capacity := n, data := [] }

/-- `RingBufferWrite::push`: append the new sample, evicting the oldest
buffered sample when the buffer is already full. -/
def RingBuf.push (b : RingBuf) (x : ℝ) : RingBuf :=
  { capacity := b.capacity
    data := (if b.data.length < b.capacity then b.data else b.data.tail) ++ [x] }

/-- Pushing every sample of a chunk in order (the first loop of
`process_waveform`). -/
def RingBuf.pushAll (b : RingBuf) (xs : List ℝ) : RingBuf :=
  xs.foldl RingBuf.push b

/-- `config::LimiterParameters`: threshold in dB, decay in dB/s, RMS window
size in samples. -/
structure LimiterParameters where
  threshold : ℝ
  decay : ℝ
  rms_samples : ℕ

/-- `config::RMSLimiterParameters`: same shape as `LimiterParameters`. -/
structure RMSLimiterParameters where
  threshold : ℝ
  decay : ℝ
  rms_samples : ℕ

/-- The configuration variants of `config::Filter` that the two limiters
match on; `other` stands for every remaining filter kind. -/
inductive FilterConf where
  | limiter (parameters : LimiterParameters)
  | rmsLimiter (parameters : RMSLimiterParameters)
  | other

/-- Whether a `config::Filter` value is the `Limiter` variant. -/
def FilterConf.matchesLimiter : FilterConf → Bool
  | .limiter _ => true
  | _ => false

/-- Whether a `config::Filter` value is the `RMSLimiter` variant. -/
def FilterConf.matchesRMSLimiter : FilterConf → Bool
  | .rmsLimiter _ => true
  | _ => false

namespace Limiter

/-- The fields of `struct Limiter` (src/limiter.rs, lines 8-16). -/
structure State where
  name : String
  samplerate : ℕ
  chunksize : ℕ
  rms_buffer : RingBuf
  threshold_voltage_ratio : ℝ
  decay_per_chunk : ℝ
  current_gain : ℝ

/-- `Limiter::chunks_per_second` (the `f32` arithmetic is modelled in ℝ). -/
noncomputable def chunks_per_second (chunksize samplerate : ℕ) : ℝ :=
  (chunksize : ℝ) / (samplerate : ℝ)

/-- `Limiter::db_to_voltage_ratio`: `10.0.powf(db / 20.0)`. -/
noncomputable def db_to_voltage_ratio (db : ℝ) : ℝ :=
  (10 : ℝ) ^ (db / 20)

/-- `Limiter::voltage_ratio_to_db`: `20.0 * voltage_ratio.log10()`. -/
noncomputable def voltage_ratio_to_db (voltage_ratio : ℝ) : ℝ :=
  20 * Real.logb 10 voltage_ratio

/-- `Limiter::decay_per_chunk` (the function, lines 40-48): convert the
decay rate in dB/s into a per-chunk voltage-ratio factor. -/
noncomputable def decay_per_chunk (chunksize samplerate : ℕ)
    (conf : LimiterParameters) : ℝ :=
  db_to_voltage_ratio (conf.decay * chunks_per_second chunksize samplerate)

/-- `Limiter::rms` (lines 62-72): accumulate the sum of squares and the
count over the iterator, then `sqrt(squared_sum / values)`. -/
noncomputable def rms (waveform : List ℝ) : ℝ :=
  Real.sqrt ((waveform.foldl (fun squared_sum item => squared_sum + item * item) 0) /
    (waveform.length : ℝ))

/-- `Limiter::from_config` (lines 19-38). -/
noncomputable def from_config (name : String) (conf : LimiterParameters)
    (chunksize samplerate : ℕ) : State :=
  { name := name
    samplerate := samplerate
    chunksize := chunksize
    rms_buffer := RingBuf.withCapacity conf.rms_samples
    threshold_voltage_ratio := db_to_voltage_ratio conf.threshold
    decay_per_chunk := decay_per_chunk chunksize samplerate conf
    current_gain := 1 }

/-- The candidate gain `PrcFmt::min(1.0, threshold_voltage_ratio / rms)` of
`process_waveform` (lines 87-88), with the IEEE division semantics made
explicit: `threshold_voltage_ratio` is always positive, so `rms = 0` makes
the quotient `+inf` (or `NaN` for an empty window) and the `min` clamp
returns `1.0` in either case. -/
noncomputable def candidate_gain (threshold_voltage_ratio rmsValue : ℝ) : ℝ :=
  if rmsValue = 0 then 1 else min 1 (threshold_voltage_ratio / rmsValue)

/-- The candidate gain computed by `process_waveform` for chunk `w`:
the RMS is taken over the buffer contents after pushing `w`. -/
noncomputable def chunkGain (s : State) (w : List ℝ) : ℝ :=
  candidate_gain s.threshold_voltage_ratio (rms (s.rms_buffer.pushAll w).data)

/-- The attack/release update of `current_gain` (lines 90-94). -/
noncomputable def nextGain (s : State) (w : List ℝ) : ℝ :=
  if chunkGain s w < s.current_gain then chunkGain s w
  else min 1 (s.current_gain * s.decay_per_chunk)

/-- `Limiter::process_waveform` (lines 80-108): push the chunk into the RMS
buffer, compute the candidate gain, apply the attack/release update, and
scale every sample of the chunk by the updated `current_gain`.  Returns the
successor state together with the mutated chunk (the `debug!` log line is a
side channel with no effect on the state or the audio). -/
noncomputable def process_waveform (s : State) (w : List ℝ) : State × List ℝ :=
  ({ s with rms_buffer := s.rms_buffer.pushAll w, current_gain := nextGain s w },
   w.map (fun item => item * nextGain s w))

/-- Folding `process_waveform` over a sequence of chunks, keeping the state. -/
noncomputable def process_seq (s : State) (chunks : List (List ℝ)) : State :=
  chunks.foldl (fun acc w => (process_waveform acc w).1) s

/-- Folding `process_waveform` over a sequence of chunks, collecting the
output chunks. -/
noncomputable def run (s : State) : List (List ℝ) → List (List ℝ)
  | [] => []
  | w :: ws => (process_waveform s w).2 :: run (process_waveform s w).1 ws

/-- `Limiter::update_parameters` (lines 110-122).  The first component
records whether the call panicked (`panic` aborts before any field is
written); the second is the instance state when the call returns or aborts. -/
noncomputable def update_parameters (s : State) (conf : FilterConf) :
    Bool × State :=
  match conf with
  | .limiter parameters =>
      (false,
       { s with
         decay_per_chunk := decay_per_chunk s.chunksize s.samplerate parameters
         threshold_voltage_ratio := db_to_voltage_ratio parameters.threshold
         rms_buffer :=
           if s.rms_buffer.capacity ≠ parameters.rms_samples then
             RingBuf.withCapacity parameters.rms_samples
           else s.rms_buffer })
  | _ => (true, s)

/-- `validate_config` (lines 126-131): reject a negative decay rate. -/
inductive ValidateResult where
  | ok
  | configError (msg : String)
deriving DecidableEq

/-- `validate_config` for `Limiter` (src/limiter.rs, lines 126-131). -/
noncomputable def validate_config (conf : LimiterParameters) : ValidateResult :=
  if conf.decay < 0 then ValidateResult.configError "Decay (dB/s) cannot be negative"
  else ValidateResult.ok

end Limiter

namespace RMSLimiter

/-- The fields of `struct RMSLimiter` (src/rms_limiter.rs, lines 8-16). -/
structure State where
  name : String
  samplerate : ℕ
  chunksize : ℕ
  rms_buffer : RingBuf
  threshold_voltage_ratio : ℝ
  decay_per_chunk : ℝ
  current_gain : ℝ

/-- `RMSLimiter::chunks_per_second`. -/
noncomputable def chunks_per_second (chunksize samplerate : ℕ) : ℝ :=
  (chunksize : ℝ) / (samplerate : ℝ)

/-- `RMSLimiter::db_to_voltage_ratio`. -/
noncomputable def db_to_voltage_ratio (db : ℝ) : ℝ :=
  (10 : ℝ) ^ (db / 20)

/-- `RMSLimiter::voltage_ratio_to_db`. -/
noncomputable def voltage_ratio_to_db (voltage_ratio : ℝ) : ℝ :=
  20 * Real.logb 10 voltage_ratio

/-- `RMSLimiter::decay_per_chunk` (the function, lines 40-48). -/
noncomputable def decay_per_chunk (chunksize samplerate : ℕ)
    (conf : RMSLimiterParameters) : ℝ :=
  db_to_voltage_ratio (conf.decay * chunks_per_second chunksize samplerate)

/-- `RMSLimiter::rms` (lines 62-72). -/
noncomputable def rms (waveform : List ℝ) : ℝ :=
  Real.sqrt ((waveform.foldl (fun squared_sum item => squared_sum + item * item) 0) /
    (waveform.length : ℝ))

/-- `RMSLimiter::from_config` (lines 19-38; `name: &str` is turned into an
owned `String`, modelled by the same `String` value). -/
noncomputable def from_config (name : String) (conf : RMSLimiterParameters)
    (chunksize samplerate : ℕ) : State :=
  { name := name
    samplerate := samplerate
    chunksize := chunksize
    rms_buffer := RingBuf.withCapacity conf.rms_samples
    threshold_voltage_ratio := db_to_voltage_ratio conf.threshold
    decay_per_chunk := decay_per_chunk chunksize samplerate conf
    current_gain := 1 }

/-- The candidate gain of `RMSLimiter::process_waveform` (lines 87-88), with
the same explicit IEEE `rms = 0` case as `Limiter.candidate_gain`. -/
noncomputable def candidate_gain (threshold_voltage_ratio rmsValue : ℝ) : ℝ :=
  if rmsValue = 0 then 1 else min 1 (threshold_voltage_ratio / rmsValue)

/-- The candidate gain computed by `RMSLimiter::process_waveform` for a chunk. -/
noncomputable def chunkGain (s : State) (w : List ℝ) : ℝ :=
  candidate_gain s.threshold_voltage_ratio (rms (s.rms_buffer.pushAll w).data)

/-- The attack/release update of `current_gain` (lines 90-94). -/
noncomputable def nextGain (s : State) (w : List ℝ) : ℝ :=
  if chunkGain s w < s.current_gain then chunkGain s w
  else min 1 (s.current_gain * s.decay_per_chunk)

/-- `RMSLimiter::process_waveform` (lines 80-108). -/
noncomputable def process_waveform (s : State) (w : List ℝ) : State × List ℝ :=
  ({ s with rms_buffer := s.rms_buffer.pushAll w, current_gain := nextGain s w },
   w.map (fun item => item * nextGain s w))

/-- Folding `RMSLimiter.process_waveform` over a sequence of chunks. -/
noncomputable def process_seq (s : State) (chunks : List (List ℝ)) : State :=
  chunks.foldl (fun acc w => (process_waveform acc w).1) s

/-- Folding `RMSLimiter.process_waveform` over chunks, collecting outputs. -/
noncomputable def run (s : State) : List (List ℝ) → List (List ℝ)
  | [] => []
  | w :: ws => (process_waveform s w).2 :: run (process_waveform s w).1 ws

/-- `RMSLimiter::update_parameters` (lines 110-122); matches the
`config::Filter::RMSLimiter` variant, aborts on every other variant. -/
noncomputable def update_parameters (s : State) (conf : FilterConf) :
    Bool × State :=
  match conf with
  | .rmsLimiter parameters =>
      (false,
       { s with
         decay_per_chunk := decay_per_chunk s.chunksize s.samplerate parameters
         threshold_voltage_ratio := db_to_voltage_ratio parameters.threshold
         rms_buffer :=
           if s.rms_buffer.capacity ≠ parameters.rms_samples then
             RingBuf.withCapacity parameters.rms_samples
           else s.rms_buffer })
  | _ => (true, s)

/-- `validate_config` for `RMSLimiter` (src/rms_limiter.rs, lines 126-131). -/
noncomputable def validate_config (conf : RMSLimiterParameters) :
    Limiter.ValidateResult :=
  if conf.decay < 0 then
    Limiter.ValidateResult.configError "Decay (dB/s) cannot be negative"
  else Limiter.ValidateResult.ok

end RMSLimiter

/-- The field-for-field translation of a `Limiter` state into an `RMSLimiter`
state (the two structs have identical fields). -/
def Limiter.State.toRMS (s : Limiter.State) : RMSLimiter.State :=
  { name := s.name
    samplerate := s.samplerate
    chunksize := s.chunksize
    rms_buffer := s.rms_buffer
    threshold_voltage_ratio := s.threshold_voltage_ratio
    decay_per_chunk := s.decay_per_chunk
    current_gain := s.current_gain }

/-- The state invariant maintained by `process_waveform`: the gain is in
`(0, 1]` and the derived scalars are positive. -/
def GoodState (s : Limiter.State) : Prop :=
  0 < s.current_gain ∧ s.current_gain ≤ 1 ∧
    0 < s.threshold_voltage_ratio ∧ 0 < s.decay_per_chunk

/-- A chunk sequence on which the candidate gain never falls below the
evolving `current_gain`, so `process_waveform` takes the release branch at
every step (the "sub-threshold signal" of the spec). -/
def Limiter.subThresholdRun : Limiter.State → List (List ℝ) → Prop
  | _, [] => True
  | s, w :: ws =>
      ¬ Limiter.chunkGain s w < s.current_gain ∧
        Limiter.subThresholdRun (Limiter.process_waveform s w).1 ws

/-- A concrete `Limiter` state used to instantiate hypothesis-bearing
theorems. -/
noncomputable def witnessLimiterState : Limiter.State :=
  { name := "a"
    samplerate := 1
    chunksize := 1
    rms_buffer := { capacity := 4, data := [] }
    threshold_voltage_ratio := 1
    decay_per_chunk := 1
    current_gain := 1 }

/-- A concrete `RMSLimiter` state used to instantiate hypothesis-bearing
theorems. -/
noncomputable def witnessRMSLimiterState : RMSLimiter.State :=
  { name := "a"
    samplerate := 1
    chunksize := 1
    rms_buffer := { capacity := 4, data := [] }
    threshold_voltage_ratio := 1
    decay_per_chunk := 1
    current_gain := 1 }

/-- A concrete `Limiter` state whose gain sits strictly below `1`, used to
instantiate hypothesis-bearing theorems about the release phase. -/
noncomputable def witnessHalfGainState : Limiter.State :=
  { name := "a"
    samplerate := 1
    chunksize := 1
    rms_buffer := { capacity := 2, data := [] }
    threshold_voltage_ratio := 1
    decay_per_chunk := 1
    current_gain := 1 / 2 }

/-- The state `from_config "lim" ⟨0, 20, 4⟩ 1 1` evaluates to: threshold
ratio `10^(0/20) = 1`, decay factor `10^((20·(1/1))/20) = 10`. -/
noncomputable def silentCexState0 : Limiter.State :=
  { name := "lim"
    samplerate := 1
    chunksize := 1
    rms_buffer := { capacity := 4, data := [] }
    threshold_voltage_ratio := 1
    decay_per_chunk := 10
    current_gain := 1 }

/-- `silentCexState0` after processing the loud chunk `[10,10,10,10]`
(rms 10, attack to gain `1/10`). -/
noncomputable def silentCexState1 : Limiter.State :=
  { name := "lim"
    samplerate := 1
    chunksize := 1
    rms_buffer := { capacity := 4, data := [10, 10, 10, 10] }
    threshold_voltage_ratio := 1
    decay_per_chunk := 10
    current_gain := 1 / 10 }

/-- `silentCexState1` after processing the chunk `[10]` (candidate `1/10`
is not below the gain, so one release step lifts the gain to
`min 1 ((1/10)·10) = 1`). -/
noncomputable def silentCexState2 : Limiter.State :=
  { name := "lim"
    samplerate := 1
    chunksize := 1
    rms_buffer := { capacity := 4, data := [10, 10, 10, 10] }
    threshold_voltage_ratio := 1
    decay_per_chunk := 10
    current_gain := 1 }

/-- The sum-of-squares accumulator of `Limiter::rms` equals the sum of the
squared samples. -/
lemma foldl_sq_eq_sum (l : List ℝ) (a : ℝ) :
    l.foldl (fun squared_sum item => squared_sum + item * item) a =
      a + (l.map fun x => x * x).sum := by
  induction l generalizing a with
  | nil => simp
  | cons x xs ih =>
      simp only [List.foldl_cons, List.map_cons, List.sum_cons, ih]
      ring

/-- `Limiter.rms` is the square root of the mean of the squared samples. -/
lemma rms_eq_sqrt_mean_sq (l : List ℝ) :
    Limiter.rms l = Real.sqrt ((l.map fun x => x * x).sum / (l.length : ℝ)) := by
  simp [Limiter.rms, foldl_sq_eq_sum]

/-- The candidate gain lies in `(0, 1]` whenever the threshold ratio is
positive and the RMS value is nonnegative. -/
lemma candidate_gain_pos_le_one (t r : ℝ) (ht : 0 < t) (hr : 0 ≤ r) :
    0 < Limiter.candidate_gain t r ∧ Limiter.candidate_gain t r ≤ 1 := by
  unfold Limiter.candidate_gain
  split_ifs with h
  · exact ⟨one_pos, le_refl 1⟩
  · have hrpos : 0 < r := lt_of_le_of_ne hr (Ne.symm h)
    exact ⟨lt_min one_pos (div_pos ht hrpos), min_le_left _ _⟩

lemma goodState_process (s : Limiter.State) (w : List ℝ) (h : GoodState s) :
    GoodState (Limiter.process_waveform s w).1 := by
  obtain ⟨hg0, hg1, ht, hd⟩ := h
  have hcand := candidate_gain_pos_le_one s.threshold_voltage_ratio
    (Limiter.rms (s.rms_buffer.pushAll w).data) ht (Real.sqrt_nonneg _)
  refine ⟨?_, ?_, ht, hd⟩ <;>
    simp only [Limiter.process_waveform, Limiter.nextGain, Limiter.chunkGain] <;>
    split_ifs with hatk
  · exact hcand.1
  · exact lt_min one_pos (mul_pos hg0 hd)
  · exact hcand.2
  · exact min_le_left _ _

lemma goodState_seq (chunks : List (List ℝ)) (s : Limiter.State)
    (h : GoodState s) : GoodState (Limiter.process_seq s chunks) := by
  induction chunks generalizing s with
  | nil => exact h
  | cons w ws ih =>
      simpa [Limiter.process_seq] using ih _ (goodState_process s w h)

lemma goodState_from_config (name : String) (conf : LimiterParameters)
    (chunksize samplerate : ℕ) :
    GoodState (Limiter.from_config name conf chunksize samplerate) := by
  refine ⟨one_pos, le_refl 1, ?_, ?_⟩
  · exact Real.rpow_pos_of_pos (by norm_num) _
  · exact Real.rpow_pos_of_pos (by norm_num) _

/-- C9: the unit conversions round-trip: for every value x (in particular
the representative values -20, -6, 0, 6),
`voltage_ratio_to_db(db_to_voltage_ratio(x)) = x`, where
`db_to_voltage_ratio(db) = 10^(db/20)` and
`voltage_ratio_to_db(ratio) = 20*log10(ratio)`. -/
theorem db_voltage_ratio_round_trip (x : ℝ) :
    Limiter.voltage_ratio_to_db (Limiter.db_to_voltage_ratio x) = x := by
  unfold Limiter.voltage_ratio_to_db Limiter.db_to_voltage_ratio
  rw [Real.logb_rpow (by norm_num) (by norm_num)]
  ring

/-- C5: `validate_config` succeeds exactly on configurations with a
nonnegative decay, fails with the configuration error exactly on a negative
decay, and no field other than `decay` affects the outcome. -/
theorem validate_config_iff_decay_nonneg (conf : LimiterParameters) :
    (Limiter.validate_config conf = Limiter.ValidateResult.ok ↔ 0 ≤ conf.decay) ∧
    (Limiter.validate_config conf =
        Limiter.ValidateResult.configError "Decay (dB/s) cannot be negative" ↔
      conf.decay < 0) ∧
    (∀ (t t2 d : ℝ) (n n2 : ℕ),
      Limiter.validate_config ⟨t, d, n⟩ = Limiter.validate_config ⟨t2, d, n2⟩) := by
  refine ⟨?_, ?_, ?_⟩
  · by_cases h : conf.decay < 0
    · simp only [Limiter.validate_config, if_pos h]
      constructor
      · intro habs
        exact absurd habs (by simp)
      · intro hle
        linarith
    · simp [Limiter.validate_config, h, not_lt.mp h]
  · by_cases h : conf.decay < 0 <;> simp [Limiter.validate_config, h]
  · intro t t2 d n n2
    by_cases h : d < 0 <;> simp [Limiter.validate_config, h]

/-- C1: `process_waveform` follows the specified per-chunk algorithm: push
every sample into the FIFO RMS window, take `rms` as the root of the mean
square of the window contents, form the candidate gain
`min(1, threshold_voltage_ratio / rms)` (which the IEEE division makes `1`
at `rms = 0`), apply the attack/release update to `current_gain`, and scale
every sample of the chunk by the single post-update `current_gain`; nothing
else in the state changes. -/
theorem process_waveform_follows_spec (s : Limiter.State) (w : List ℝ) :
    (Limiter.process_waveform s w).1.rms_buffer = s.rms_buffer.pushAll w ∧
    (Limiter.process_waveform s w).1.current_gain =
      (let window := (s.rms_buffer.pushAll w).data
       let r := Real.sqrt ((window.map fun x => x * x).sum / (window.length : ℝ))
       let candidate := if r = 0 then 1 else min 1 (s.threshold_voltage_ratio / r)
       if candidate < s.current_gain then candidate
       else min 1 (s.current_gain * s.decay_per_chunk)) ∧
    (Limiter.process_waveform s w).2 =
      w.map (fun x => x * (Limiter.process_waveform s w).1.current_gain) ∧
    (Limiter.process_waveform s w).1.threshold_voltage_ratio =
      s.threshold_voltage_ratio ∧
    (Limiter.process_waveform s w).1.decay_per_chunk = s.decay_per_chunk ∧
    (Limiter.process_waveform s w).1.name = s.name ∧
    (Limiter.process_waveform s w).1.samplerate = s.samplerate ∧
    (Limiter.process_waveform s w).1.chunksize = s.chunksize := by
  refine ⟨rfl, ?_, rfl, rfl, rfl, rfl, rfl, rfl⟩
  simp only [Limiter.process_waveform, Limiter.nextGain, Limiter.chunkGain,
    Limiter.candidate_gain, rms_eq_sqrt_mean_sq]

/-- C6: for every matching configuration, `update_parameters` leaves
`current_gain` (and name, samplerate, chunksize) unchanged, recomputes
`threshold_voltage_ratio` and `decay_per_chunk` from the new configuration,
and discards/reallocates the RMS window empty exactly when the new
`rms_samples` differs from the current window capacity; the call does not
abort.  Both source variants are covered. -/
theorem update_parameters_matching_config :
    (∀ (s : Limiter.State) (conf : LimiterParameters),
      Limiter.update_parameters s (FilterConf.limiter conf) =
        (false,
         { s with
           decay_per_chunk := Limiter.decay_per_chunk s.chunksize s.samplerate conf
           threshold_voltage_ratio := Limiter.db_to_voltage_ratio conf.threshold
           rms_buffer :=
             if s.rms_buffer.capacity ≠ conf.rms_samples then
               RingBuf.withCapacity conf.rms_samples
             else s.rms_buffer }) ∧
      (Limiter.update_parameters s (FilterConf.limiter conf)).2.current_gain =
        s.current_gain ∧
      (RingBuf.withCapacity conf.rms_samples).data = []) ∧
    (∀ (s : RMSLimiter.State) (conf : RMSLimiterParameters),
      RMSLimiter.update_parameters s (FilterConf.rmsLimiter conf) =
        (false,
         { s with
           decay_per_chunk := RMSLimiter.decay_per_chunk s.chunksize s.samplerate conf
           threshold_voltage_ratio := RMSLimiter.db_to_voltage_ratio conf.threshold
           rms_buffer :=
             if s.rms_buffer.capacity ≠ conf.rms_samples then
               RingBuf.withCapacity conf.rms_samples
             else s.rms_buffer }) ∧
      (RMSLimiter.update_parameters s (FilterConf.rmsLimiter conf)).2.current_gain =
        s.current_gain ∧
      (RingBuf.withCapacity conf.rms_samples).data = []) :=
  ⟨fun _ _ => ⟨rfl, rfl, rfl⟩, fun _ _ => ⟨rfl, rfl, rfl⟩⟩

/-- C7: calling `update_parameters` with a configuration variant of a
different filter kind aborts the call (the source panics) and leaves every
field of the instance unchanged.  Both source variants are covered. -/
theorem update_parameters_mismatched_kind :
    (∀ (s : Limiter.State) (conf : FilterConf),
      conf.matchesLimiter = false →
        Limiter.update_parameters s conf = (true, s)) ∧
    (∀ (s : RMSLimiter.State) (conf : FilterConf),
      conf.matchesRMSLimiter = false →
        RMSLimiter.update_parameters s conf = (true, s)) := by
  constructor
  · intro s conf h
    cases conf with
    | limiter p => exact absurd h (by simp [FilterConf.matchesLimiter])
    | rmsLimiter p => rfl
    | other => rfl
  · intro s conf h
    cases conf with
    | limiter p => rfl
    | rmsLimiter p => exact absurd h (by simp [FilterConf.matchesRMSLimiter])
    | other => rfl

/-- Witness for C7 at a concrete state and the `other` configuration kind. -/
theorem update_parameters_mismatched_kind_witness :
    (FilterConf.other.matchesLimiter = false ∧
      Limiter.update_parameters witnessLimiterState FilterConf.other =
        (true, witnessLimiterState)) ∧
    (FilterConf.other.matchesRMSLimiter = false ∧
      RMSLimiter.update_parameters witnessRMSLimiterState FilterConf.other =
        (true, witnessRMSLimiterState)) :=
  ⟨⟨rfl, update_parameters_mismatched_kind.1 witnessLimiterState FilterConf.other rfl⟩,
   ⟨rfl, update_parameters_mismatched_kind.2 witnessRMSLimiterState FilterConf.other rfl⟩⟩

/-- C10: when the new configuration's `rms_samples` equals the current
window capacity, `update_parameters` keeps the buffered window contents and
`current_gain` unchanged and only replaces the two derived scalars.  Both
source variants are covered. -/
theorem update_parameters_same_window_size :
    (∀ (s : Limiter.State) (conf : LimiterParameters),
      s.rms_buffer.capacity = conf.rms_samples →
        Limiter.update_parameters s (FilterConf.limiter conf) =
          (false,
           { s with
             decay_per_chunk := Limiter.decay_per_chunk s.chunksize s.samplerate conf
             threshold_voltage_ratio := Limiter.db_to_voltage_ratio conf.threshold })) ∧
    (∀ (s : RMSLimiter.State) (conf : RMSLimiterParameters),
      s.rms_buffer.capacity = conf.rms_samples →
        RMSLimiter.update_parameters s (FilterConf.rmsLimiter conf) =
          (false,
           { s with
             decay_per_chunk := RMSLimiter.decay_per_chunk s.chunksize s.samplerate conf
             threshold_voltage_ratio := RMSLimiter.db_to_voltage_ratio conf.threshold })) := by
  constructor
  · intro s conf h
    simp [Limiter.update_parameters, h]
  · intro s conf h
    simp [RMSLimiter.update_parameters, h]

/-- Witness for C10 at a concrete state and configuration with matching
window size. -/
theorem update_parameters_same_window_size_witness :
    (witnessLimiterState.rms_buffer.capacity = (4 : ℕ) ∧
      Limiter.update_parameters witnessLimiterState
          (FilterConf.limiter ⟨2, 3, 4⟩) =
        (false,
         { witnessLimiterState with
           decay_per_chunk := Limiter.decay_per_chunk 1 1 ⟨2, 3, 4⟩
           threshold_voltage_ratio := Limiter.db_to_voltage_ratio 2 })) ∧
    (witnessRMSLimiterState.rms_buffer.capacity = (4 : ℕ) ∧
      RMSLimiter.update_parameters witnessRMSLimiterState
          (FilterConf.rmsLimiter ⟨2, 3, 4⟩) =
        (false,
         { witnessRMSLimiterState with
           decay_per_chunk := RMSLimiter.decay_per_chunk 1 1 ⟨2, 3, 4⟩
           threshold_voltage_ratio := RMSLimiter.db_to_voltage_ratio 2 })) :=
  ⟨⟨rfl, update_parameters_same_window_size.1 witnessLimiterState ⟨2, 3, 4⟩ rfl⟩,
   ⟨rfl, update_parameters_same_window_size.2 witnessRMSLimiterState ⟨2, 3, 4⟩ rfl⟩⟩

/-- One processing step commutes with the field-for-field translation
between the two variants. -/
lemma process_waveform_toRMS (s : Limiter.State) (w : List ℝ) :
    RMSLimiter.process_waveform s.toRMS w =
      ((Limiter.process_waveform s w).1.toRMS, (Limiter.process_waveform s w).2) :=
  rfl

/-- C8: the two source variants are behaviorally identical: `from_config`
on configurations with equal field values yields field-for-field equal
states, and from field-for-field equal states `process` produces equal
output chunks and field-for-field equal successor states for every input
chunk sequence. -/
theorem limiter_rms_limiter_equivalent :
    (∀ (name : String) (threshold decay : ℝ) (rms_samples chunksize samplerate : ℕ),
      (Limiter.from_config name ⟨threshold, decay, rms_samples⟩
          chunksize samplerate).toRMS =
        RMSLimiter.from_config name ⟨threshold, decay, rms_samples⟩
          chunksize samplerate) ∧
    (∀ (s : Limiter.State) (chunks : List (List ℝ)),
      Limiter.run s chunks = RMSLimiter.run s.toRMS chunks ∧
      (Limiter.process_seq s chunks).toRMS =
        RMSLimiter.process_seq s.toRMS chunks) := by
  constructor
  · intro name threshold decay rms_samples chunksize samplerate
    rfl
  · intro s chunks
    induction chunks generalizing s with
    | nil => exact ⟨rfl, rfl⟩
    | cons w ws ih =>
        obtain ⟨hrun, hseq⟩ := ih (Limiter.process_waveform s w).1
        constructor
        · simp only [Limiter.run, RMSLimiter.run, process_waveform_toRMS, hrun]
        · simp only [Limiter.process_seq, RMSLimiter.process_seq, List.foldl_cons] at hseq ⊢
          rw [process_waveform_toRMS]
          exact hseq

/-- C2: `current_gain` is `1` at construction, and for every sequence of
`process` calls on an instance built from a validated configuration
(nonnegative decay), `current_gain` after each call lies in `(0, 1]`. -/
theorem current_gain_in_unit_interval (name : String) (conf : LimiterParameters)
    (chunksize samplerate : ℕ) (_hdecay : 0 ≤ conf.decay)
    (chunks : List (List ℝ)) :
    (Limiter.from_config name conf chunksize samplerate).current_gain = 1 ∧
    0 < (Limiter.process_seq (Limiter.from_config name conf chunksize samplerate)
          chunks).current_gain ∧
    (Limiter.process_seq (Limiter.from_config name conf chunksize samplerate)
          chunks).current_gain ≤ 1 := by
  have hinv := goodState_seq chunks _
    (goodState_from_config name conf chunksize samplerate)
  exact ⟨rfl, hinv.1, hinv.2.1⟩

/-- Witness for C2 at a concrete configuration and chunk sequence. -/
theorem current_gain_in_unit_interval_witness :
    (0:ℝ) ≤ 20 ∧
    ((Limiter.from_config "w" ⟨0, 20, 4⟩ 1 1).current_gain = 1 ∧
     0 < (Limiter.process_seq (Limiter.from_config "w" ⟨0, 20, 4⟩ 1 1)
           [[1]]).current_gain ∧
     (Limiter.process_seq (Limiter.from_config "w" ⟨0, 20, 4⟩ 1 1)
           [[1]]).current_gain ≤ 1) :=
  ⟨by norm_num, current_gain_in_unit_interval "w" ⟨0, 20, 4⟩ 1 1 (by norm_num) [[1]]⟩

/-- One release step of the clamped geometric recursion. -/
lemma min_decay_step (g d : ℝ) (n : ℕ) (hg : g ≤ 1) (hd : 0 ≤ d) :
    min 1 (min 1 (g * d) * d ^ n) = min 1 (g * d ^ (n + 1)) := by
  rcases le_or_lt (g * d) 1 with h | h
  · rw [min_eq_right h]
    congr 1
    ring
  · rw [min_eq_left h.le, one_mul]
    have hd1 : 1 < d := by
      by_contra hle
      push_neg at hle
      nlinarith [mul_nonneg (sub_nonneg.mpr hg) hd]
    have hdn : (1:ℝ) ≤ d ^ n := one_le_pow₀ hd1.le
    have hdn0 : (0:ℝ) < d ^ n := lt_of_lt_of_le one_pos hdn
    have h1 : (1:ℝ) ≤ g * d ^ (n + 1) := by
      have heq : g * d ^ (n + 1) = g * d * d ^ n := by ring
      nlinarith [mul_le_mul_of_nonneg_right h.le hdn0.le]
    rw [min_eq_left hdn, min_eq_left h1]

/-- On a sub-threshold run the gain follows the clamped geometric law. -/
lemma release_iterate (ws : List (List ℝ)) (s : Limiter.State)
    (hg : s.current_gain ≤ 1) (hd : 0 ≤ s.decay_per_chunk)
    (hrun : Limiter.subThresholdRun s ws) :
    (Limiter.process_seq s ws).current_gain =
      min 1 (s.current_gain * s.decay_per_chunk ^ ws.length) := by
  induction ws generalizing s with
  | nil => simp [Limiter.process_seq, min_eq_right hg]
  | cons w ws ih =>
      obtain ⟨hstep, hrest⟩ := hrun
      have hgain : (Limiter.process_waveform s w).1.current_gain =
          min 1 (s.current_gain * s.decay_per_chunk) := by
        simp only [Limiter.process_waveform]
        rw [Limiter.nextGain, if_neg hstep]
      have hdec : (Limiter.process_waveform s w).1.decay_per_chunk =
          s.decay_per_chunk := rfl
      have ih' := ih (Limiter.process_waveform s w).1
        (by rw [hgain]; exact min_le_left _ _) (by rw [hdec]; exact hd) hrest
      simp only [Limiter.process_seq, List.foldl_cons] at ih' ⊢
      rw [ih', hgain, hdec, List.length_cons]
      exact min_decay_step s.current_gain s.decay_per_chunk ws.length hg hd

/-- C3: after an attack has reduced `current_gain` below `1`, a run of `N`
chunks on which the candidate gain never falls below the evolving
`current_gain` multiplies `current_gain` by `decay_per_chunk` on each call,
clamped at `1`: the final gain equals
`min 1 (initial_gain * decay_per_chunk ^ N)` and never exceeds `1`. -/
theorem release_run_geometric (s : Limiter.State) (ws : List (List ℝ))
    (hg : s.current_gain < 1) (hd : 0 ≤ s.decay_per_chunk)
    (hrun : Limiter.subThresholdRun s ws) :
    (Limiter.process_seq s ws).current_gain =
      min 1 (s.current_gain * s.decay_per_chunk ^ ws.length) ∧
    (Limiter.process_seq s ws).current_gain ≤ 1 := by
  have h := release_iterate ws s hg.le hd hrun
  refine ⟨h, ?_⟩
  rw [h]
  exact min_le_left _ _

/-- Witness for C3 at a concrete below-unity state and a one-chunk
sub-threshold run. -/
theorem release_run_geometric_witness :
    (witnessHalfGainState.current_gain < 1 ∧
     (0:ℝ) ≤ witnessHalfGainState.decay_per_chunk ∧
     Limiter.subThresholdRun witnessHalfGainState [[0]]) ∧
    ((Limiter.process_seq witnessHalfGainState [[0]]).current_gain =
       min 1 (witnessHalfGainState.current_gain *
         witnessHalfGainState.decay_per_chunk ^ (1:ℕ)) ∧
     (Limiter.process_seq witnessHalfGainState [[0]]).current_gain ≤ 1) := by
  have h1 : witnessHalfGainState.current_gain < 1 := by
    norm_num [witnessHalfGainState]
  have h2 : (0:ℝ) ≤ witnessHalfGainState.decay_per_chunk := by
    norm_num [witnessHalfGainState]
  have h3 : Limiter.subThresholdRun witnessHalfGainState [[0]] := by
    refine ⟨?_, trivial⟩
    have hpush : witnessHalfGainState.rms_buffer.pushAll [0] =
        { capacity := 2, data := [0] } := by
      simp [witnessHalfGainState, RingBuf.pushAll, RingBuf.push]
    have hrms : Limiter.rms [0] = 0 := by
      simp [Limiter.rms]
    have hcg : Limiter.chunkGain witnessHalfGainState [0] = 1 := by
      simp only [Limiter.chunkGain, hpush]
      simp [hrms, Limiter.candidate_gain]
    rw [hcg]
    norm_num [witnessHalfGainState]
  exact ⟨⟨h1, h2, h3⟩, release_run_geometric witnessHalfGainState [[0]] h1 h2 h3⟩

/-- The sum-of-squares accumulator is unchanged by all-zero samples. -/
lemma foldl_sq_zeros (l : List ℝ) (h : ∀ x ∈ l, x = 0) (a : ℝ) :
    l.foldl (fun squared_sum item => squared_sum + item * item) a = a := by
  induction l generalizing a with
  | nil => rfl
  | cons x xs ih =>
      have hx : x = 0 := h x (List.mem_cons_self x xs)
      have hxs : ∀ y ∈ xs, y = 0 := fun y hy => h y (List.mem_cons_of_mem x hy)
      simp [List.foldl_cons, hx, ih hxs]

/-- The RMS of an all-zero sample list is zero. -/
lemma rms_of_zeros (l : List ℝ) (h : ∀ x ∈ l, x = 0) : Limiter.rms l = 0 := by
  simp [Limiter.rms, foldl_sq_zeros l h, Real.sqrt_zero]

/-- Pushing a zero sample keeps an all-zero buffer all-zero. -/
lemma push_data_zeros (b : RingBuf) (x : ℝ) (hb : ∀ y ∈ b.data, y = 0)
    (hx : x = 0) : ∀ y ∈ (b.push x).data, y = 0 := by
  intro y hy
  simp only [RingBuf.push, List.mem_append, List.mem_singleton] at hy
  rcases hy with hy | hy
  · split_ifs at hy with hc
    · exact hb y hy
    · exact hb y (List.mem_of_mem_tail hy)
  · exact hy.trans hx

/-- Pushing an all-zero chunk keeps an all-zero buffer all-zero. -/
lemma pushAll_data_zeros (w : List ℝ) (b : RingBuf) (hb : ∀ y ∈ b.data, y = 0)
    (hw : ∀ x ∈ w, x = 0) : ∀ y ∈ (b.pushAll w).data, y = 0 := by
  induction w generalizing b with
  | nil => exact hb
  | cons x xs ih =>
      have hx : x = 0 := hw x (List.mem_cons_self x xs)
      have hxs : ∀ z ∈ xs, z = 0 := fun z hz => hw z (List.mem_cons_of_mem x hz)
      simp only [RingBuf.pushAll, List.foldl_cons]
      exact ih (b.push x) (push_data_zeros b x hb hx) hxs

/-- C4 (amended): when the windowed rms is zero the candidate gain is `1`
(in the source this arises from the IEEE division `threshold/0 = +inf`
clamped by `min(1.0, _)`, modelled by the explicit case in
`candidate_gain`); and when the RMS window holds only zeros, repeatedly
feeding all-zero chunks never reduces `current_gain`, which stays in
`(0, 1]`.  (Without the all-zero-window premise the no-reduction statement
is false: see the counterexample.) -/
theorem silence_on_quiet_window (s : Limiter.State)
    (hg0 : 0 < s.current_gain) (hg1 : s.current_gain ≤ 1)
    (hd : 1 ≤ s.decay_per_chunk)
    (hwin : ∀ x ∈ s.rms_buffer.data, x = 0)
    (chunks : List (List ℝ)) (hz : ∀ c ∈ chunks, ∀ x ∈ c, x = 0) :
    s.current_gain ≤ (Limiter.process_seq s chunks).current_gain ∧
    0 < (Limiter.process_seq s chunks).current_gain ∧
    (Limiter.process_seq s chunks).current_gain ≤ 1 ∧
    (∀ t : ℝ, Limiter.candidate_gain t 0 = 1) := by
  have main : ∀ (cs : List (List ℝ)) (st : Limiter.State),
      0 < st.current_gain → st.current_gain ≤ 1 → 1 ≤ st.decay_per_chunk →
      (∀ x ∈ st.rms_buffer.data, x = 0) →
      (∀ c ∈ cs, ∀ x ∈ c, x = 0) →
      st.current_gain ≤ (Limiter.process_seq st cs).current_gain ∧
      0 < (Limiter.process_seq st cs).current_gain ∧
      (Limiter.process_seq st cs).current_gain ≤ 1 := by
    intro cs
    induction cs with
    | nil =>
        intro st h0 h1 _ _ _
        exact ⟨le_refl _, h0, h1⟩
    | cons w ws ih =>
        intro st h0 h1 hdc hw0 hcz
        have hw : ∀ x ∈ w, x = 0 := hcz w (List.mem_cons_self w ws)
        have hws : ∀ c ∈ ws, ∀ x ∈ c, x = 0 :=
          fun c hc => hcz c (List.mem_cons_of_mem w hc)
        have hzwin : ∀ x ∈ (st.rms_buffer.pushAll w).data, x = 0 :=
          pushAll_data_zeros w st.rms_buffer hw0 hw
        have hcg : Limiter.chunkGain st w = 1 := by
          rw [Limiter.chunkGain, rms_of_zeros _ hzwin]
          exact if_pos rfl
        have hng : Limiter.nextGain st w =
            min 1 (st.current_gain * st.decay_per_chunk) := by
          rw [Limiter.nextGain, hcg, if_neg (not_lt.mpr h1)]
        have hstate : (Limiter.process_waveform st w).1.current_gain =
            min 1 (st.current_gain * st.decay_per_chunk) := by
          simp only [Limiter.process_waveform]
          exact hng
        have hmono : st.current_gain ≤
            (Limiter.process_waveform st w).1.current_gain := by
          rw [hstate]
          exact le_min h1 (le_mul_of_one_le_right h0.le hdc)
        have h0' : 0 < (Limiter.process_waveform st w).1.current_gain := by
          rw [hstate]
          exact lt_min one_pos (mul_pos h0 (lt_of_lt_of_le one_pos hdc))
        have h1' : (Limiter.process_waveform st w).1.current_gain ≤ 1 := by
          rw [hstate]
          exact min_le_left _ _
        have hdc' : 1 ≤ (Limiter.process_waveform st w).1.decay_per_chunk := hdc
        have hw0' : ∀ x ∈ (Limiter.process_waveform st w).1.rms_buffer.data,
            x = 0 := hzwin
        obtain ⟨ha, hb, hc⟩ :=
          ih (Limiter.process_waveform st w).1 h0' h1' hdc' hw0' hws
        simp only [Limiter.process_seq, List.foldl_cons] at ha hb hc ⊢
        exact ⟨le_trans hmono ha, hb, hc⟩
  obtain ⟨ha, hb, hc⟩ := main chunks s hg0 hg1 hd hwin hz
  exact ⟨ha, hb, hc, fun t => if_pos rfl⟩

/-- Witness for the amended C4 at a concrete quiet-window state and one
all-zero chunk. -/
theorem silence_on_quiet_window_witness :
    (0 < witnessLimiterState.current_gain ∧
     witnessLimiterState.current_gain ≤ 1 ∧
     1 ≤ witnessLimiterState.decay_per_chunk ∧
     (∀ x ∈ witnessLimiterState.rms_buffer.data, x = 0) ∧
     (∀ c ∈ ([[0]] : List (List ℝ)), ∀ x ∈ c, x = 0)) ∧
    (witnessLimiterState.current_gain ≤
       (Limiter.process_seq witnessLimiterState [[0]]).current_gain ∧
     0 < (Limiter.process_seq witnessLimiterState [[0]]).current_gain ∧
     (Limiter.process_seq witnessLimiterState [[0]]).current_gain ≤ 1 ∧
     (∀ t : ℝ, Limiter.candidate_gain t 0 = 1)) := by
  have h0 : 0 < witnessLimiterState.current_gain := by
    norm_num [witnessLimiterState]
  have h1 : witnessLimiterState.current_gain ≤ 1 := by
    norm_num [witnessLimiterState]
  have hd : 1 ≤ witnessLimiterState.decay_per_chunk := by
    norm_num [witnessLimiterState]
  have hwin : ∀ x ∈ witnessLimiterState.rms_buffer.data, x = 0 := by
    simp [witnessLimiterState]
  have hz : ∀ c ∈ ([[0]] : List (List ℝ)), ∀ x ∈ c, x = 0 := by
    simp
  exact ⟨⟨h0, h1, hd, hwin, hz⟩,
    silence_on_quiet_window witnessLimiterState h0 h1 hd hwin [[0]] hz⟩

/-- `sqrt 100 = 10`. -/
lemma sqrt_hundred : Real.sqrt 100 = 10 := by
  rw [show (100:ℝ) = 10 ^ 2 by norm_num, Real.sqrt_sq (by norm_num : (0:ℝ) ≤ 10)]

/-- The RMS of the full loud window. -/
lemma cex_rms_full : Limiter.rms [10, 10, 10, 10] = 10 := by
  rw [Limiter.rms]
  simp only [List.foldl_cons, List.foldl_nil, List.length_cons, List.length_nil]
  norm_num [sqrt_hundred]

/-- The RMS of the window after one zero sample evicted a loud one. -/
lemma cex_rms_silent : Limiter.rms [10, 10, 10, 0] = Real.sqrt 75 := by
  rw [Limiter.rms]
  simp only [List.foldl_cons, List.foldl_nil, List.length_cons, List.length_nil]
  norm_num

/-- Construction evaluates to `silentCexState0`. -/
lemma cex_step0 : Limiter.from_config "lim" ⟨0, 20, 4⟩ 1 1 = silentCexState0 := by
  have h1 : Limiter.db_to_voltage_ratio
      (LimiterParameters.mk 0 20 4).threshold = 1 := by
    rw [show (LimiterParameters.mk 0 20 4).threshold = 0 from rfl,
      Limiter.db_to_voltage_ratio, zero_div, Real.rpow_zero]
  have h2 : Limiter.decay_per_chunk 1 1 (LimiterParameters.mk 0 20 4) = 10 := by
    rw [Limiter.decay_per_chunk, Limiter.chunks_per_second,
      Limiter.db_to_voltage_ratio]
    norm_num
  rw [Limiter.from_config, h1, h2]
  rfl

/-- Processing the loud chunk attacks to gain `1/10`. -/
lemma cex_step1 :
    (Limiter.process_waveform silentCexState0 [10, 10, 10, 10]).1 =
      silentCexState1 := by
  have hpush : silentCexState0.rms_buffer.pushAll [10, 10, 10, 10] =
      { capacity := 4, data := [10, 10, 10, 10] } := by
    norm_num [silentCexState0, RingBuf.pushAll, RingBuf.push, RingBuf.mk.injEq]
  have hcg : Limiter.chunkGain silentCexState0 [10, 10, 10, 10] = 1 / 10 := by
    rw [Limiter.chunkGain, hpush,
      show ({ capacity := 4, data := [10, 10, 10, 10] } : RingBuf).data =
        [10, 10, 10, 10] from rfl,
      cex_rms_full, Limiter.candidate_gain,
      if_neg (by norm_num : ¬((10:ℝ) = 0)),
      show silentCexState0.threshold_voltage_ratio = 1 from rfl,
      min_eq_right (by norm_num : (1:ℝ)/10 ≤ 1)]
  have hlt : Limiter.chunkGain silentCexState0 [10, 10, 10, 10] <
      silentCexState0.current_gain := by
    rw [hcg]
    norm_num [silentCexState0]
  simp only [Limiter.process_waveform]
  rw [Limiter.nextGain, if_pos hlt, hcg, hpush]
  rfl

/-- Processing the chunk `[10]` takes one release step up to gain `1`. -/
lemma cex_step2 :
    (Limiter.process_waveform silentCexState1 [10]).1 = silentCexState2 := by
  have hpush : silentCexState1.rms_buffer.pushAll [10] =
      { capacity := 4, data := [10, 10, 10, 10] } := by
    norm_num [silentCexState1, RingBuf.pushAll, RingBuf.push, RingBuf.mk.injEq]
  have hcg : Limiter.chunkGain silentCexState1 [10] = 1 / 10 := by
    rw [Limiter.chunkGain, hpush,
      show ({ capacity := 4, data := [10, 10, 10, 10] } : RingBuf).data =
        [10, 10, 10, 10] from rfl,
      cex_rms_full, Limiter.candidate_gain,
      if_neg (by norm_num : ¬((10:ℝ) = 0)),
      show silentCexState1.threshold_voltage_ratio = 1 from rfl,
      min_eq_right (by norm_num : (1:ℝ)/10 ≤ 1)]
  have hnlt : ¬ Limiter.chunkGain silentCexState1 [10] <
      silentCexState1.current_gain := by
    rw [hcg]
    norm_num [silentCexState1]
  simp only [Limiter.process_waveform]
  rw [Limiter.nextGain, if_neg hnlt, hpush,
    show min (1:ℝ) (silentCexState1.current_gain * silentCexState1.decay_per_chunk)
      = 1 by norm_num [silentCexState1]]
  rfl

/-- Processing the all-zero chunk `[0]` re-attacks down to `1/sqrt 75`. -/
lemma cex_gain3 :
    (Limiter.process_waveform silentCexState2 [0]).1.current_gain =
      1 / Real.sqrt 75 := by
  have hpush : silentCexState2.rms_buffer.pushAll [0] =
      { capacity := 4, data := [10, 10, 10, 0] } := by
    norm_num [silentCexState2, RingBuf.pushAll, RingBuf.push, RingBuf.mk.injEq]
  have h75 : (1:ℝ) < Real.sqrt 75 :=
    (Real.lt_sqrt (by norm_num)).mpr (by norm_num)
  have h75pos : (0:ℝ) < Real.sqrt 75 := lt_trans one_pos h75
  have hcg : Limiter.chunkGain silentCexState2 [0] = 1 / Real.sqrt 75 := by
    rw [Limiter.chunkGain, hpush,
      show ({ capacity := 4, data := [10, 10, 10, 0] } : RingBuf).data =
        [10, 10, 10, 0] from rfl,
      cex_rms_silent, Limiter.candidate_gain, if_neg h75pos.ne',
      show silentCexState2.threshold_voltage_ratio = 1 from rfl,
      min_eq_right ((div_le_one h75pos).mpr h75.le)]
  have hlt : Limiter.chunkGain silentCexState2 [0] <
      silentCexState2.current_gain := by
    rw [hcg, show silentCexState2.current_gain = 1 from rfl]
    exact (div_lt_one h75pos).mpr h75
  simp only [Limiter.process_waveform]
  rw [Limiter.nextGain, if_pos hlt, hcg]

/-- C4 counterexample: starting from `from_config "lim" ⟨0 dB, 20 dB/s, 4⟩`
with `chunksize = samplerate = 1`, the chunks `[10,10,10,10]` then `[10]`
leave the gain released at `1` while loud samples still fill the RMS
window; the next chunk `[0]` — all-zero samples — then *reduces*
`current_gain` (from `1` to `1/sqrt 75`), contradicting the claim that
feeding all-zero chunks never reduces `current_gain` below its value
before the silence began. -/
theorem silent_chunk_reduces_gain_counterexample :
    (Limiter.process_waveform
        (Limiter.process_waveform
          (Limiter.process_waveform (Limiter.from_config "lim" ⟨0, 20, 4⟩ 1 1)
            [10, 10, 10, 10]).1
          [10]).1
        [0]).1.current_gain <
      (Limiter.process_waveform
          (Limiter.process_waveform (Limiter.from_config "lim" ⟨0, 20, 4⟩ 1 1)
            [10, 10, 10, 10]).1
          [10]).1.current_gain := by
  rw [cex_step0, cex_step1, cex_step2, cex_gain3,
    show silentCexState2.current_gain = 1 from rfl]
  have h75 : (1:ℝ) < Real.sqrt 75 :=
    (Real.lt_sqrt (by norm_num)).mpr (by norm_num)
  exact (div_lt_one (lt_trans one_pos h75)).mpr h75
